import Mathlib

/-
Verification of the codemap incremental repository index (src/main.rs).

Shallow embedding conventions:
* Rust `String` / `&str` values are modelled as `List Char` (`Str` below);
  `String::len` (UTF-8 byte count) is `byteLen`, `to_ascii_lowercase` /
  `to_lowercase` are `toLowerS` (ASCII case folding), `ends_with` /
  `starts_with` / `contains` are decidable suffix/prefix/infix tests.
* `HashMap<String, T>` is modelled as an association list
  `List (Str × T)`; `insert` is `insertA` (replace-or-append) and `get`
  is `lookupA`.  Iteration order is the list order; all theorems about
  maps are stated up to `lookupA` (map-ordering normalization).
* `sha2::Sha256` digests are not re-implemented: every function that
  hashes text takes the digest function `hashFn : Str → Str` as an
  explicit argument; no claim below depends on concrete digest values.
* Filesystem effects are modelled by explicit world / state records
  (`World` for the walker, `FsState` for `init`); fallible operations
  return `Except Unit` / `Option` exactly where the Rust code can fail.
* The `f32` arithmetic of `reuse_ratio` is modelled over `ℚ`.
-/

set_option autoImplicit false

namespace Codemap

abbrev Str := List Char

/-- UTF-8 encoded size in bytes of one character. -/
def charSize (c : Char) : Nat :=
  if c.toNat < 128 then 1
  else if c.toNat < 2048 then 2
  else if c.toNat < 65536 then 3
  else 4

/-- Rust `String::len`: number of UTF-8 bytes. -/
def byteLen (s : Str) : Nat :=
  (s.map charSize).sum

/-- ASCII lowercasing, as Rust `to_ascii_lowercase` (and our model of
`to_lowercase` on the ASCII paths the code manipulates). -/
def toLowerS (s : Str) : Str :=
  s.map Char.toLower

/-- Rust `str::ends_with`. -/
def endsWithS (s suffix : Str) : Bool :=
  decide (suffix <:+ s)

/-- Rust `str::starts_with`. -/
def startsWithS (s pre : Str) : Bool :=
  decide (pre <+: s)

/-- Rust `str::contains` (substring test). -/
def containsS (s needle : Str) : Bool :=
  decide (needle <:+: s)

/-- Split a string at every occurrence of the separator character
(`str::split` / the single-character uses of `splitn`); always returns a
non-empty list. -/
def splitOnC (sep : Char) : Str → List Str
  | [] => [[]]
  | c :: cs =>
    let r := splitOnC sep cs
    if c = sep then [] :: r
    else
      match r with
      | [] => [[c]]
      | h :: t => (c :: h) :: t

/-- Join a list of strings with a separator string (inverse of `splitOnC`). -/
def intercalateS (sep : Str) : List Str → Str
  | [] => []
  | [x] => x
  | x :: y :: t => x ++ sep ++ intercalateS sep (y :: t)

/-- `truncate_to_bytes` (src/main.rs:451): the longest prefix of `s` that is
at most `max` bytes long, cut at a character boundary. -/
def truncate_to_bytes : Str → Nat → Str
  | [], _ => []
  | c :: cs, max =>
    if charSize c ≤ max then c :: truncate_to_bytes cs (max - charSize c) else []

-- ---------- Data Models (src/main.rs:104-138) ----------

structure EntryPoint where
  path : Str
  rank : Nat
  reason : Str
deriving DecidableEq

structure FunctionInfo where
  name : Str
  line : Nat
  summary : Option Str
  hash : Str
deriving DecidableEq

structure FolderNode where
  children : List Str
deriving DecidableEq

structure FileContext where
  language : Str
  functions : List FunctionInfo
deriving DecidableEq

structure ProjectContext where
  folders : List (Str × FolderNode)
  files : List (Str × FileContext)
  entry_points : List EntryPoint
  project_brief : Option Str
deriving DecidableEq

-- ---------- association-list model of HashMap ----------

def lookupA {α : Type} : List (Str × α) → Str → Option α
  | [], _ => none
  | (k, v) :: rest, key => if k = key then some v else lookupA rest key

def insertA {α : Type} : List (Str × α) → Str → α → List (Str × α)
  | [], k, v => [(k, v)]
  | (k0, v0) :: rest, k, v =>
    if k0 = k then (k, v) :: rest else (k0, v0) :: insertA rest k v

def containsKeyA {α : Type} (m : List (Str × α)) (k : Str) : Bool :=
  (lookupA m k).isSome

/-- The `old_map` / `old_by_name` construction (src/main.rs:388-391, 49-52):
insert every function keyed by name, later entries overwriting earlier ones. -/
def buildOldMap (fs : List FunctionInfo) : List (Str × FunctionInfo) :=
  fs.foldl (fun m f => insertA m f.name f) []

/-- Specification-side view of `buildOldMap` lookups: the last record in
the list bearing the given name. -/
def lastByName (fs : List FunctionInfo) (k : Str) : Option FunctionInfo :=
  fs.reverse.find? (fun f => decide (f.name = k))

-- ---------- Merge (src/main.rs:387-447) ----------

/-- Per-record merge decision of `merge_file_contexts` (the body of the
`for nf in &newf.functions` loop, src/main.rs:398-418). -/
def mergeOne (old_map : List (Str × FunctionInfo)) (nf : FunctionInfo) : FunctionInfo :=
  match lookupA old_map nf.name with
  | none => nf
  | some of =>
    if of.hash = nf.hash then { nf with summary := of.summary }
    else { nf with summary := none }

/-- `merge_file_contexts` (src/main.rs:387-421). -/
def merge_file_contexts (old newf : FileContext) : FileContext :=
  let old_map := buildOldMap old.functions
  { language := newf.language
    functions := newf.functions.foldl (fun out nf =>
      match lookupA old_map nf.name with
      | none => out ++ [nf]
      | some of =>
        if of.hash = nf.hash then out ++ [{ nf with summary := of.summary }]
        else out ++ [{ nf with summary := none }]) [] }

/-- `merge_contexts` (src/main.rs:424-447). -/
def merge_contexts (old_ctx new_ctx : ProjectContext) : ProjectContext :=
  { folders := new_ctx.folders
    files := new_ctx.files.foldl (fun acc pf =>
      match lookupA old_ctx.files pf.1 with
      | none => insertA acc pf.1 pf.2
      | some old_file => insertA acc pf.1 (merge_file_contexts old_file pf.2)) []
    entry_points := old_ctx.entry_points
    project_brief := old_ctx.project_brief }

-- ---------- Metric measuring (src/main.rs:34-66, 697-701) ----------

/-- Inner loop of `diff_function_counts` over the functions of one file
present in both snapshots (src/main.rs:53-60); the accumulator is
`(total, added, modified, unchanged)`. -/
def diffGoFns (oldf : FileContext) :
    List FunctionInfo → Nat × Nat × Nat × Nat → Nat × Nat × Nat × Nat
  | [], acc => acc
  | nf :: rest, (t, a, m, u) =>
    diffGoFns oldf rest
      (match lookupA (buildOldMap oldf.functions) nf.name with
       | none => (t, a + 1, m, u)
       | some of => if of.hash = nf.hash then (t, a, m, u + 1) else (t, a, m + 1, u))

/-- Outer loop of `diff_function_counts` over `new.files` (src/main.rs:41-63). -/
def diffGoFiles (old : ProjectContext) :
    List (Str × FileContext) → Nat × Nat × Nat × Nat → Nat × Nat × Nat × Nat
  | [], acc => acc
  | (p, newf) :: rest, (t, a, m, u) =>
    match lookupA old.files p with
    | none => diffGoFiles old rest (t + newf.functions.length, a + newf.functions.length, m, u)
    | some oldf => diffGoFiles old rest (diffGoFns oldf newf.functions (t + newf.functions.length, a, m, u))

/-- `diff_function_counts` (src/main.rs:34-66): returns
`(total, added, modified, unchanged)`. -/
def diff_function_counts (old new : ProjectContext) : Nat × Nat × Nat × Nat :=
  diffGoFiles old new.files (0, 0, 0, 0)

/-- The reuse-ratio computation of `update_context` (src/main.rs:697-701),
with the `f32` arithmetic modelled over `ℚ`. -/
def reuse_ratio (unchanged modified : Nat) : ℚ :=
  let denom : ℚ := ((unchanged + modified : Nat) : ℚ)
  if denom > 0 then ((unchanged : Nat) : ℚ) / denom else 1

-- ---------- Language classifier (src/main.rs:302-314) ----------

/-- `detect_language` (src/main.rs:302-314). -/
def detect_language (extension : Str) : Option Str :=
  let e := toLowerS extension
  if e = ("rs").data then some (("rust").data)
  else if e = ("py").data then some (("python").data)
  else if e = ("js").data then some (("javascript").data)
  else if e = ("ts").data then some (("typescript").data)
  else if e = ("java").data then some (("java").data)
  else if e = ("go").data then some (("go").data)
  else if e = ("cpp").data then some (("cpp").data)
  else if e = ("cc").data then some (("cpp").data)
  else if e = ("cxx").data then some (("cpp").data)
  else if e = ("c++").data then some (("cpp").data)
  else if e = ("c").data then some (("c").data)
  else none

/-- Rust `Path::extension` on a file name: the portion after the final
dot, absent when there is no dot or when the only dot is the leading one
of a hidden file. -/
def fileExtension (name : Str) : Option Str :=
  match splitOnC '.' name with
  | [] => none
  | [_] => none
  | first :: second :: rest =>
    if first = [] ∧ rest = [] then none else (second :: rest).getLast?

-- ---------- Function extractor (src/main.rs:316-363) ----------

/-- Regex `\s` character class (ASCII part). -/
def isWs (c : Char) : Bool :=
  c == ' ' || c == '\t' || c == '\n' || c == '\r' || c == '\x0b' || c == '\x0c'

/-- Regex `\w` character class (ASCII part). -/
def isWordChar (c : Char) : Bool :=
  c.isAlphanum || c == '_'

/-- Strip a literal from the front of a string, if present. -/
def stripPre (pre s : Str) : Option Str :=
  if pre.isPrefixOf s then some (s.drop pre.length) else none

/-- Match an optional `(kw\s+)?` regex group: consume the keyword and the
following whitespace when both are present, otherwise leave the input. -/
def tryKeyword (kw : Str) (l : Str) : Str :=
  match stripPre kw l with
  | none => l
  | some rest =>
    match rest with
    | [] => l
    | c :: _ => if isWs c then rest.dropWhile isWs else l

/-- Match of `^\s*(pub\s+)?(async\s+)?fn\s+(\w+)` against one line,
returning the captured identifier (src/main.rs:320-325). -/
def lineFnName (l : Str) : Option Str :=
  let l1 := l.dropWhile isWs
  let l2 := tryKeyword (("pub").data) l1
  let l3 := tryKeyword (("async").data) l2
  match stripPre (("fn").data) l3 with
  | none => none
  | some rest =>
    match rest with
    | [] => none
    | c :: _ =>
      if isWs c then
        let nm := (rest.dropWhile isWs).takeWhile isWordChar
        if nm = [] then none else some nm
      else none

/-- Brace counting over one line (src/main.rs:337-344): returns the
updated depth and whether an opening brace has been seen. -/
def braceScan (l : Str) (openN : Int) (found : Bool) : Int × Bool :=
  l.foldl (fun st c =>
    if c = '\x7b' then (st.1 + 1, true)
    else if c = '\x7d' then (st.1 - 1, st.2)
    else st) (openN, found)

/-- Body accumulation (src/main.rs:327-348): push each line plus a
newline, stopping once a brace has been seen and the depth returns to
zero. -/
def captureBodyGo : List Str → Int → Bool → Str
  | [], _, _ => []
  | l :: rest, openN, found =>
    let st := braceScan l openN found
    (l ++ ['\n']) ++ (if st.2 ∧ st.1 = 0 then [] else captureBodyGo rest st.1 st.2)

def captureBody (lines : List Str) : Str :=
  captureBodyGo lines 0 false

/-- Rust `str::lines`: split on newlines, drop a trailing empty segment,
strip one trailing carriage return per line. -/
def splitLines (s : Str) : List Str :=
  let parts := splitOnC '\n' s
  let parts := if parts.getLast? = some [] then parts.dropLast else parts
  parts.map (fun l => if l.getLast? = some '\r' then l.dropLast else l)

/-- `extract_functions` (src/main.rs:316-363), parameterized by the
SHA-256 digest `hashFn`. -/
def extract_functions (hashFn : Str → Str) (source : Str) (lang : Str) : List FunctionInfo :=
  if lang = ("rust").data then
    let lines := splitLines source
    (List.range lines.length).filterMap (fun i =>
      match lineFnName (lines.getD i []) with
      | none => none
      | some nm =>
        some { name := nm, line := i + 1, summary := none,
               hash := hashFn (captureBody (lines.drop i)) })
  else []

-- ---------- Repository walker and snapshot builder (src/main.rs:227-300) ----------

/-- One entry yielded by `WalkDir::new(".")`: the path components as Rust
produces them (starting with the `.` current-dir component) and the
entry's kind. -/
structure WEntry where
  comps : List Str
  isDir : Bool
  isFile : Bool
deriving DecidableEq

/-- The filesystem as seen by `build_context` and the candidate gatherer:
the walker's stream (each item may be a traversal error), directory
listings (`fs::read_dir`, whose iteration may fail), and file reads
(`fs::read` / `fs::read_to_string`, keyed by the path string passed to
them; `none` means unreadable). -/
structure World where
  walk : List (Except Unit WEntry)
  readDir : List Str → Except Unit (List Str)
  readFile : Str → Option Str

def ignored_dirs : List Str :=
  [("target").data, (".git").data, ("node_modules").data, (".venv").data, ("__pycache__").data]

/-- `entry.file_name()` of a walked entry. -/
def fileNameOf (e : WEntry) : Str :=
  e.comps.getLastD []

/-- The hidden-entry filter predicate (src/main.rs:246-254): name starts
with `.` but not with `.codemap`. -/
def hiddenSkip (nm : Str) : Bool :=
  startsWithS nm ['.'] && !(startsWithS nm ((".codemap").data))

/-- `path.strip_prefix(".")?` (src/main.rs:262,275). -/
def stripDot : List Str → Except Unit (List Str)
  | c :: rest => if c = ['.'] then Except.ok rest else Except.error ()
  | [] => Except.error ()

/-- `Path::display` of a component list (components joined by `/`). -/
def pathStr (comps : List Str) : Str :=
  intercalateS ['/'] comps

/-- State threaded through the walk loop: the `folders` and `files` maps. -/
abbrev BuildSt := List (Str × FolderNode) × List (Str × FileContext)

/-- The `if path.is_dir()` block of `build_context` (src/main.rs:256-264):
record a folder entry; `read_dir` and `strip_prefix` errors propagate. -/
def dirStep (w : World) (e : WEntry) (st : BuildSt) : Except Unit BuildSt :=
  if e.isDir then
    match w.readDir e.comps with
    | Except.error _ => Except.error ()
    | Except.ok children =>
      match stripDot e.comps with
      | Except.error _ => Except.error ()
      | Except.ok rel =>
        Except.ok (insertA st.1 (pathStr rel) { children := children }, st.2)
  else Except.ok st

/-- The `if path.is_file()` block of `build_context` (src/main.rs:267-290):
classify by extension, read the bytes (an unreadable file is silently
skipped), extract functions and record the file entry. -/
def fileStep (hashFn : Str → Str) (w : World) (e : WEntry) (st : BuildSt) :
    Except Unit BuildSt :=
  if e.isFile then
    match fileExtension (fileNameOf e) with
    | none => Except.ok st
    | some ext =>
      match detect_language ext with
      | none => Except.ok st
      | some lang =>
        match w.readFile (pathStr e.comps) with
        | none => Except.ok st
        | some contents =>
          match stripDot e.comps with
          | Except.error _ => Except.error ()
          | Except.ok rel =>
            Except.ok (st.1, insertA st.2 (pathStr rel)
              { language := lang, functions := extract_functions hashFn contents lang })
  else Except.ok st

/-- The body of `build_context`'s walk loop for one successfully yielded
entry (src/main.rs:236-292): the two filters, then the directory block
followed by the file block. -/
def procEntry (hashFn : Str → Str) (w : World) (st : BuildSt) (e : WEntry) :
    Except Unit BuildSt :=
  if e.comps.any (fun c => c ∈ ignored_dirs) then Except.ok st
  else if hiddenSkip (fileNameOf e) then Except.ok st
  else
    match dirStep w e st with
    | Except.error _ => Except.error ()
    | Except.ok st1 => fileStep hashFn w e st1

/-- The walk loop of `build_context` (src/main.rs:233-292): a traversal
error (`entry?`) aborts the whole build. -/
def buildGo (hashFn : Str → Str) (w : World) :
    List (Except Unit WEntry) → BuildSt → Except Unit BuildSt
  | [], st => Except.ok st
  | e :: rest, st =>
    match e with
    | Except.error _ => Except.error ()
    | Except.ok en =>
      match procEntry hashFn w st en with
      | Except.error _ => Except.error ()
      | Except.ok st1 => buildGo hashFn w rest st1

/-- `build_context` (src/main.rs:227-300). -/
def build_context (hashFn : Str → Str) (w : World) : Except Unit ProjectContext :=
  match buildGo hashFn w w.walk ([], []) with
  | Except.error _ => Except.error ()
  | Except.ok st =>
    Except.ok { folders := st.1, files := st.2, entry_points := [], project_brief := none }

/-- An entry that passes both walk filters. -/
def survivesFilters (en : WEntry) : Prop :=
  en.comps.any (fun c => c ∈ ignored_dirs) = false ∧ hiddenSkip (fileNameOf en) = false

/-- A regular file entry that survives the filters, has an extension the
classifier accepts, and whose bytes are readable. -/
def readableSourceEntry (w : World) (en : WEntry) : Prop :=
  en.isFile = true ∧ survivesFilters en ∧
  ∃ ext lang c, fileExtension (fileNameOf en) = some ext ∧
    detect_language ext = some lang ∧ w.readFile (pathStr en.comps) = some c

/-- A path whose final component carries an accepted extension: some
`ext` accepted by `detect_language` such that `"." ++ ext` is a suffix
of the path. -/
def GoodKey (k : Str) : Prop :=
  ∃ ext, (detect_language ext).isSome ∧ ('.' :: ext) <:+ k

-- ---------- Onboarding candidate gathering (src/main.rs:451-553) ----------

/-- The README test of candidate bucket 1 (src/main.rs:503-506). -/
def isReadme (k : Str) : Bool :=
  endsWithS (toLowerS k) (("readme.md").data) || endsWithS (toLowerS k) (("readme").data)

/-- State of the candidate gatherer: the `seen` set and the `out` list. -/
abbrev CandSt := List Str × List (Str × Str)

/-- `push_file` (src/main.rs:462-477). -/
def push_file (w : World) (ctx : ProjectContext) (path : Str) (st : CandSt)
    (max_bytes_per_file : Nat) : CandSt :=
  if path ∈ st.1 ∨ containsKeyA ctx.files path = false then st
  else
    match w.readFile path with
    | none => st
    | some text =>
      (st.1 ++ [path], st.2 ++ [(path, truncate_to_bytes text max_bytes_per_file)])

/-- Byte-lexicographic order on strings (what Rust `Vec<String>::sort`
uses; on UTF-8 this agrees with code-point order). -/
def strLeb : Str → Str → Bool
  | [], _ => true
  | _ :: _, [] => false
  | a :: as, b :: bs => if a = b then strLeb as bs else decide (a < b)

/-- Stable insertion into a sorted list (model of Rust's stable sort). -/
def insSorted {α : Type} (le : α → α → Bool) (x : α) : List α → List α
  | [] => [x]
  | y :: ys => if le y x then y :: insSorted le x ys else x :: y :: ys

def sortByB {α : Type} (le : α → α → Bool) (l : List α) : List α :=
  l.foldl (fun acc x => insSorted le x acc) []

/-- A `for` loop of `push_file` calls with the
`if out.len() >= max_files { return out; }` early exit; the boolean
records whether the loop exited early. -/
def pushLoop (w : World) (ctx : ProjectContext) (max_files max_bytes : Nat) :
    List Str → CandSt → CandSt × Bool
  | [], st => (st, false)
  | p :: ps, st =>
    let st1 := push_file w ctx p st max_bytes
    if max_files ≤ st1.2.length then (st1, true)
    else pushLoop w ctx max_files max_bytes ps st1

def candPats : List Str :=
  [("route").data, ("router").data, ("handler").data, ("server").data,
   ("controller").data, ("cli").data, ("command").data]

/-- Buckets 2-5 of `build_entry_candidates` (src/main.rs:511-552). -/
def bucketsFrom2 (w : World) (ctx : ProjectContext) (max_files max_bytes : Nat)
    (st : CandSt) : List (Str × Str) :=
  let st := push_file w ctx (("src/main.rs").data) st max_bytes
  if max_files ≤ st.2.length then st.2 else
  let st := push_file w ctx (("src/lib.rs").data) st max_bytes
  if max_files ≤ st.2.length then st.2 else
  let bin_paths := sortByB strLeb ((ctx.files.map Prod.fst).filter
    (fun k => startsWithS k (("src/bin/").data)))
  match pushLoop w ctx max_files max_bytes bin_paths st with
  | (st, true) => st.2
  | (st, false) =>
    let heuristic_paths := sortByB strLeb ((ctx.files.map Prod.fst).filter
      (fun k => candPats.any (fun p => containsS (toLowerS k) p)))
    match pushLoop w ctx max_files max_bytes heuristic_paths st with
    | (st, true) => st.2
    | (st, false) =>
      let remaining := sortByB
        (fun a b => decide (b.2.functions.length ≤ a.2.functions.length))
        (ctx.files.filter (fun kv => ¬ (kv.1 ∈ st.1)))
      (pushLoop w ctx max_files max_bytes (remaining.map Prod.fst) st).1.2

/-- `build_entry_candidates` (src/main.rs:494-553). -/
def build_entry_candidates (w : World) (ctx : ProjectContext)
    (max_files max_bytes_per_file : Nat) : List (Str × Str) :=
  let st0 : CandSt := ([], [])
  match (ctx.files.map Prod.fst).find? (fun k => isReadme k) with
  | some readme =>
    let st1 := push_file w ctx readme st0 max_bytes_per_file
    if max_files ≤ st1.2.length then st1.2
    else bucketsFrom2 w ctx max_files max_bytes_per_file st1
  | none => bucketsFrom2 w ctx max_files max_bytes_per_file st0

-- ---------- Onboarding prompt (src/main.rs:555-580) ----------

/-- The instruction preamble of `render_onboarding_prompt`
(src/main.rs:556-568), with `\x7b`/`\x7d` escaping literal braces and
`–` the en dash of the Rust source. -/
def onboardPreamble : Str :=
  ("You are onboarding a developer to this repository.\n        Return STRICT JSON with <=7 UNIQUE entries by path.\n        Format: \x7b\"entries\":[\x7b\"path\":\"...\",\"rank\":1-10,\"reason\":\"...\"\x7d],\"project_brief\":\"...\"\x7d\n\n        Rules:\n        - Do not repeat a path.\n        - Use higher rank for more important files.\n        - Keep the brief to 3–5 sentences.\n\n        ").data

/-- The candidate loop of `render_onboarding_prompt` (src/main.rs:569-578). -/
def renderGo (max_chars : Nat) : List (Str × Str) → Str → Str
  | [], s => s
  | (p, txt) :: rest, s =>
    if max_chars ≤ byteLen s then s
    else
      let s1 := s ++ p ++ (("\n---\n").data)
      let remaining := max_chars - byteLen s1
      renderGo max_chars rest (s1 ++ truncate_to_bytes txt remaining ++ (("\n\n").data))

/-- `render_onboarding_prompt` (src/main.rs:555-580). -/
def render_onboarding_prompt (cands : List (Str × Str)) (max_chars : Nat) : Str :=
  renderGo max_chars cands onboardPreamble

-- ---------- init (src/main.rs:197-225) ----------

/-- The default configuration written by `init` (src/main.rs:4-18). -/
def CONFIG_TEXT : Str :=
  ("# Number of notes to show when running `codemap show`\ndefault_note_count = 3\n\n# Timestamp format for logs (unused for now)\ntimestamp_format = \"iso8601\"\n\n# Optional: Project tag for filtering later (future feature)\nproject_name = \"my-project\"\n\n# LLM (optional)\nllm_provider = \"openai\"        # openai | cmd (cmd not used in MVP)\nllm_model = \"gpt-4o-mini\"\nllm_api_key = \"\"               # or set OPENAI_API_KEY in env\nmax_prompt_chars = 4000\n").data

/-- The on-disk state `init` inspects and writes under `./.codemap`:
`none` means the file does not exist.  The persisted snapshot is stored
structurally (serialization is not modelled). -/
structure FsState where
  dirExists : Bool
  log : Option Str
  config : Option Str
  context : Option ProjectContext
deriving DecidableEq

/-- `init` (src/main.rs:197-225), with the freshly built snapshot passed
in as `built` (the result of `build_context`).  Returns the new on-disk
state and whether the "already initialized" message was printed. -/
def init (built : ProjectContext) (s : FsState) : FsState × Bool :=
  if s.log.isSome ∧ s.config.isSome then (s, true)
  else
    ({ dirExists := true
       log := some []
       config := some CONFIG_TEXT
       context := some built }, false)

/-- Specification-side view of one step of `merge_contexts`: the file
stored for a path of the fresh snapshot. -/
def mergeVal (old_ctx : ProjectContext) (p : Str) (nf : FileContext) : FileContext :=
  match lookupA old_ctx.files p with
  | none => nf
  | some old_file => merge_file_contexts old_file nf

/-- A `FunctionRecord` as rebuilt by a fresh walk: same identity, summary
absent. -/
def clearSummary (f : FunctionInfo) : FunctionInfo :=
  { f with summary := none }

-- ---------- concrete instances used in counterexamples and witnesses ----------

/-- A file whose two functions share a name (identical bodies, hence
identical hashes) but carry different summaries. -/
def dupFileOld : FileContext :=
  ⟨("rust").data, [⟨("f").data, 1, some (("x").data), ("h").data⟩,
                   ⟨("f").data, 2, some (("y").data), ("h").data⟩]⟩

def dupFileNew : FileContext :=
  ⟨("rust").data, [⟨("f").data, 1, none, ("h").data⟩,
                   ⟨("f").data, 2, none, ("h").data⟩]⟩

def dupCtx : ProjectContext := ⟨[], [(("a.rs").data, dupFileOld)], [], none⟩

def dupNew : ProjectContext := ⟨[], [(("a.rs").data, dupFileNew)], [], none⟩

/-- A snapshot with a single file whose function names are distinct. -/
def wFileOld : FileContext :=
  ⟨("rust").data, [⟨("main").data, 1, some (("entry").data), ("h").data⟩]⟩

def wFileNew : FileContext :=
  ⟨("rust").data, [⟨("main").data, 1, none, ("h").data⟩]⟩

def wCtx : ProjectContext :=
  ⟨[(("src").data, ⟨[]⟩)], [(("a.rs").data, wFileOld)],
   [⟨("a.rs").data, 9, ("r").data⟩], some (("b").data)⟩

def wNew : ProjectContext :=
  ⟨[(("src").data, ⟨[]⟩)], [(("a.rs").data, wFileNew)], [], none⟩

/-- The empty snapshot, used as a stand-in `build_context` result. -/
def builtEmpty : ProjectContext := ⟨[], [], [], none⟩

/-- A world whose walk yields one traversal error. -/
def wErr : World :=
  ⟨[Except.error ()], fun _ => Except.ok [], fun _ => none⟩

/-- A world with one readable python file and one unreadable rust file. -/
def w8 : World :=
  ⟨[Except.ok ⟨[['.'], ("a.py").data], false, true⟩,
    Except.ok ⟨[['.'], ("b.rs").data], false, true⟩],
   fun _ => Except.ok [],
   fun p => if p = ("./a.py").data then some [] else none⟩

/-- A world with a single readable python file, answering both the
walker's `./`-prefixed spelling and the candidate gatherer's relative
spelling. -/
def w10 : World :=
  ⟨[Except.ok ⟨[['.'], ("a.py").data], false, true⟩],
   fun _ => Except.ok [],
   fun p => if p = ("./a.py").data ∨ p = ("a.py").data then some [] else none⟩

/-- The snapshot `build_context` produces on `w10`. -/
def ctx10 : ProjectContext :=
  ⟨[], [(("a.py").data, ⟨("python").data, []⟩)], [], none⟩

/-- On-disk state where `log.json` and `config.toml` exist but
`context.json` does not. -/
def stateLogConfigOnly : FsState := ⟨true, some [], some [], none⟩

-- ======================================================================
-- Lemmas
-- ======================================================================

theorem byteLen_append (a b : Str) : byteLen (a ++ b) = byteLen a + byteLen b := by
  simp [byteLen]

theorem byteLen_truncate_le (s : Str) : ∀ m : Nat, byteLen (truncate_to_bytes s m) ≤ m := by
  induction s with
  | nil =>
    intro m
    simp [truncate_to_bytes, byteLen]
  | cons c cs ih =>
    intro m
    simp only [truncate_to_bytes]
    by_cases hc : charSize c ≤ m
    · rw [if_pos hc]
      have h1 : byteLen (c :: truncate_to_bytes cs (m - charSize c)) =
          charSize c + byteLen (truncate_to_bytes cs (m - charSize c)) := by
        simp [byteLen]
      have h2 := ih (m - charSize c)
      omega
    · rw [if_neg hc]
      simp [byteLen]

theorem lookupA_nil {α : Type} (key : Str) : lookupA ([] : List (Str × α)) key = none := rfl

theorem lookupA_cons {α : Type} (k0 : Str) (v0 : α) (t : List (Str × α)) (key : Str) :
    lookupA ((k0, v0) :: t) key = if k0 = key then some v0 else lookupA t key := rfl

theorem insertA_cons {α : Type} (k0 : Str) (v0 : α) (t : List (Str × α)) (k : Str) (v : α) :
    insertA ((k0, v0) :: t) k v = if k0 = k then (k, v) :: t else (k0, v0) :: insertA t k v := rfl

theorem lookupA_insertA {α : Type} (m : List (Str × α)) (k : Str) (v : α) (key : Str) :
    lookupA (insertA m k v) key = if k = key then some v else lookupA m key := by
  induction m with
  | nil =>
    show lookupA [(k, v)] key = _
    rw [lookupA_cons, lookupA_nil]
  | cons hd t ih =>
    obtain ⟨k0, v0⟩ := hd
    by_cases hk : k0 = k
    · subst hk
      rw [insertA_cons, if_pos rfl, lookupA_cons, lookupA_cons]
      by_cases hkey : k0 = key
      · rw [if_pos hkey, if_pos hkey]
      · rw [if_neg hkey, if_neg hkey, if_neg hkey]
    · rw [insertA_cons, if_neg hk, lookupA_cons, lookupA_cons, ih]
      by_cases hkey : k0 = key
      · have hk2 : ¬ k = key := fun h => hk (hkey.trans h.symm)
        rw [if_pos hkey, if_neg hk2, if_pos hkey]
      · rw [if_neg hkey, if_neg hkey]

theorem mem_keys_insertA {α : Type} (m : List (Str × α)) (k : Str) (v : α) (key : Str) :
    key ∈ (insertA m k v).map Prod.fst ↔ key = k ∨ key ∈ m.map Prod.fst := by
  induction m with
  | nil =>
    show key ∈ [(k, v)].map Prod.fst ↔ _
    simp
  | cons hd t ih =>
    obtain ⟨k0, v0⟩ := hd
    by_cases hk : k0 = k
    · subst hk
      rw [insertA_cons, if_pos rfl]
      simp only [List.map_cons, List.mem_cons]
      tauto
    · rw [insertA_cons, if_neg hk]
      simp only [List.map_cons, List.mem_cons, ih]
      tauto

theorem mem_insertA {α : Type} (m : List (Str × α)) (k : Str) (v : α) (q : Str × α) :
    q ∈ insertA m k v → q = (k, v) ∨ q ∈ m := by
  induction m with
  | nil =>
    show q ∈ [(k, v)] → _
    simp
  | cons hd t ih =>
    obtain ⟨k0, v0⟩ := hd
    by_cases hk : k0 = k
    · subst hk
      rw [insertA_cons, if_pos rfl]
      simp only [List.mem_cons]
      tauto
    · rw [insertA_cons, if_neg hk]
      simp only [List.mem_cons]
      rintro (rfl | hq)
      · tauto
      · rcases ih hq with h1 | h1 <;> tauto

theorem lookupA_isSome_iff_mem_keys {α : Type} (m : List (Str × α)) (k : Str) :
    (lookupA m k).isSome ↔ k ∈ m.map Prod.fst := by
  induction m with
  | nil => simp [lookupA_nil]
  | cons hd t ih =>
    obtain ⟨k0, v0⟩ := hd
    rw [lookupA_cons]
    by_cases hk : k0 = k
    · subst hk
      rw [if_pos rfl]
      exact iff_of_true rfl (List.mem_cons_self _ _)
    · rw [if_neg hk]
      simp only [List.map_cons, List.mem_cons, ih]
      tauto

theorem lookupA_mem {α : Type} (m : List (Str × α)) (k : Str) (v : α) :
    lookupA m k = some v → (k, v) ∈ m := by
  induction m with
  | nil => simp [lookupA_nil]
  | cons hd t ih =>
    obtain ⟨k0, v0⟩ := hd
    rw [lookupA_cons]
    by_cases hk : k0 = k
    · subst hk
      rw [if_pos rfl]
      simp only [Option.some.injEq, List.mem_cons]
      rintro rfl
      tauto
    · rw [if_neg hk]
      simp only [List.mem_cons]
      intro h1
      exact Or.inr (ih h1)

theorem find?_cons_eq {α : Type} (p : α → Bool) (a : α) (l : List α) :
    List.find? p (a :: l) = if p a then some a else List.find? p l := by
  by_cases h : p a
  · rw [List.find?_cons_of_pos _ h, if_pos h]
  · rw [List.find?_cons_of_neg _ h, if_neg h]

theorem foldl_insert_lookup (fs : List FunctionInfo) (m0 : List (Str × FunctionInfo)) (k : Str) :
    lookupA (fs.foldl (fun m f => insertA m f.name f) m0) k =
      match lastByName fs k with
      | some f => some f
      | none => lookupA m0 k := by
  induction fs generalizing m0 with
  | nil => rfl
  | cons f rest ih =>
    simp only [List.foldl_cons, ih, lastByName, List.reverse_cons, List.find?_append]
    cases hfind : (List.find? (fun g => decide (g.name = k)) rest.reverse) with
    | some g => simp [Option.or]
    | none =>
      simp only [Option.or, find?_cons_eq, List.find?_nil]
      by_cases hk : f.name = k
      · rw [if_pos (by simpa using hk), lookupA_insertA, if_pos hk]
      · rw [if_neg (by simpa using hk), lookupA_insertA, if_neg hk]

theorem buildOldMap_lookup (fs : List FunctionInfo) (k : Str) :
    lookupA (buildOldMap fs) k =
      match lastByName fs k with
      | some f => some f
      | none => none := by
  unfold buildOldMap
  rw [foldl_insert_lookup]
  cases lastByName fs k <;> rfl

theorem merge_step_eq (om : List (Str × FunctionInfo)) (out : List FunctionInfo)
    (nf : FunctionInfo) :
    (match lookupA om nf.name with
     | none => out ++ [nf]
     | some of =>
       if of.hash = nf.hash then out ++ [{ nf with summary := of.summary }]
       else out ++ [{ nf with summary := none }]) = out ++ [mergeOne om nf] := by
  unfold mergeOne
  cases lookupA om nf.name with
  | none => rfl
  | some of => by_cases h : of.hash = nf.hash <;> simp [h]

theorem merge_foldl_push (om : List (Str × FunctionInfo)) (l : List FunctionInfo)
    (acc : List FunctionInfo) :
    (l.foldl (fun out nf =>
      match lookupA om nf.name with
      | none => out ++ [nf]
      | some of =>
        if of.hash = nf.hash then out ++ [{ nf with summary := of.summary }]
        else out ++ [{ nf with summary := none }]) acc) = acc ++ l.map (mergeOne om) := by
  induction l generalizing acc with
  | nil => simp
  | cons nf rest ih =>
    simp only [List.foldl_cons]
    rw [merge_step_eq om acc nf, ih]
    simp

theorem merge_functions_map (old newf : FileContext) :
    (merge_file_contexts old newf).functions =
      newf.functions.map (mergeOne (buildOldMap old.functions)) := by
  unfold merge_file_contexts
  simp [merge_foldl_push]

theorem mergeOne_name (om : List (Str × FunctionInfo)) (nf : FunctionInfo) :
    (mergeOne om nf).name = nf.name := by
  unfold mergeOne
  cases lookupA om nf.name with
  | none => rfl
  | some of => by_cases h : of.hash = nf.hash <;> simp [h]

theorem mergeOne_line (om : List (Str × FunctionInfo)) (nf : FunctionInfo) :
    (mergeOne om nf).line = nf.line := by
  unfold mergeOne
  cases lookupA om nf.name with
  | none => rfl
  | some of => by_cases h : of.hash = nf.hash <;> simp [h]

theorem mergeOne_hash (om : List (Str × FunctionInfo)) (nf : FunctionInfo) :
    (mergeOne om nf).hash = nf.hash := by
  unfold mergeOne
  cases lookupA om nf.name with
  | none => rfl
  | some of => by_cases h : of.hash = nf.hash <;> simp [h]

theorem mergeOne_summary (old : List FunctionInfo) (nf : FunctionInfo) :
    (mergeOne (buildOldMap old) nf).summary =
      match lastByName old nf.name with
      | none => nf.summary
      | some of => if of.hash = nf.hash then of.summary else none := by
  unfold mergeOne
  rw [buildOldMap_lookup]
  cases lastByName old nf.name with
  | none => rfl
  | some of => by_cases h : of.hash = nf.hash <;> simp [h]

theorem mergeFold_step_eq (old_ctx : ProjectContext) (acc : List (Str × FileContext))
    (pf : Str × FileContext) :
    (match lookupA old_ctx.files pf.1 with
     | none => insertA acc pf.1 pf.2
     | some old_file => insertA acc pf.1 (merge_file_contexts old_file pf.2)) =
      insertA acc pf.1 (mergeVal old_ctx pf.1 pf.2) := by
  unfold mergeVal
  cases lookupA old_ctx.files pf.1 <;> rfl

theorem merge_contexts_files (old_ctx new_ctx : ProjectContext) :
    (merge_contexts old_ctx new_ctx).files =
      new_ctx.files.foldl (fun acc pf => insertA acc pf.1 (mergeVal old_ctx pf.1 pf.2)) [] := by
  unfold merge_contexts
  simp only [mergeFold_step_eq]

theorem mem_keys_mergeFold (old_ctx : ProjectContext) (l : List (Str × FileContext))
    (acc : List (Str × FileContext)) (k : Str) :
    k ∈ (l.foldl (fun acc pf => insertA acc pf.1 (mergeVal old_ctx pf.1 pf.2)) acc).map Prod.fst →
      k ∈ acc.map Prod.fst ∨ k ∈ l.map Prod.fst := by
  induction l generalizing acc with
  | nil =>
    intro h
    exact Or.inl h
  | cons pf rest ih =>
    intro h
    simp only [List.foldl_cons] at h
    rcases ih _ h with h1 | h1
    · rw [mem_keys_insertA] at h1
      rcases h1 with rfl | h1
      · exact Or.inr (by rw [List.map_cons]; exact List.mem_cons_self _ _)
      · tauto
    · simp only [List.map_cons, List.mem_cons]
      tauto

theorem diffGoFns_spec (oldf : FileContext) (fns : List FunctionInfo) :
    ∀ acc : Nat × Nat × Nat × Nat,
      (diffGoFns oldf fns acc).1 = acc.1 ∧
      (diffGoFns oldf fns acc).2.1 + (diffGoFns oldf fns acc).2.2.1 +
        (diffGoFns oldf fns acc).2.2.2 = acc.2.1 + acc.2.2.1 + acc.2.2.2 + fns.length := by
  induction fns with
  | nil =>
    intro acc
    obtain ⟨t, a, m, u⟩ := acc
    simp [diffGoFns]
  | cons nf rest ih =>
    intro acc
    obtain ⟨t, a, m, u⟩ := acc
    simp only [diffGoFns, List.length_cons]
    cases hl : lookupA (buildOldMap oldf.functions) nf.name with
    | none =>
      simp only [hl]
      have h := ih (t, a + 1, m, u)
      dsimp only at h
      exact ⟨h.1, by omega⟩
    | some of =>
      simp only [hl]
      by_cases hh : of.hash = nf.hash
      · simp only [if_pos hh]
        have h := ih (t, a, m, u + 1)
        dsimp only at h
        exact ⟨h.1, by omega⟩
      · simp only [if_neg hh]
        have h := ih (t, a, m + 1, u)
        dsimp only at h
        exact ⟨h.1, by omega⟩

theorem diffGoFiles_spec (old : ProjectContext) (files : List (Str × FileContext)) :
    ∀ acc : Nat × Nat × Nat × Nat,
      (diffGoFiles old files acc).1 =
        acc.1 + (files.map (fun pf => pf.2.functions.length)).sum ∧
      (diffGoFiles old files acc).2.1 + (diffGoFiles old files acc).2.2.1 +
        (diffGoFiles old files acc).2.2.2 =
        acc.2.1 + acc.2.2.1 + acc.2.2.2 +
          (files.map (fun pf => pf.2.functions.length)).sum := by
  induction files with
  | nil =>
    intro acc
    obtain ⟨t, a, m, u⟩ := acc
    simp [diffGoFiles]
  | cons pf rest ih =>
    intro acc
    obtain ⟨t, a, m, u⟩ := acc
    obtain ⟨p, newf⟩ := pf
    simp only [diffGoFiles, List.map_cons, List.sum_cons]
    cases hl : lookupA old.files p with
    | none =>
      simp only [hl]
      have h := ih (t + newf.functions.length, a + newf.functions.length, m, u)
      dsimp only at h
      exact ⟨by omega, by omega⟩
    | some oldf =>
      simp only [hl]
      have h1 := diffGoFns_spec oldf newf.functions (t + newf.functions.length, a, m, u)
      dsimp only at h1
      have h2 := ih (diffGoFns oldf newf.functions (t + newf.functions.length, a, m, u))
      exact ⟨by omega, by omega⟩

theorem splitOnC_ne_nil (sep : Char) (s : Str) : splitOnC sep s ≠ [] := by
  cases s with
  | nil => simp [splitOnC]
  | cons c cs =>
    simp only [splitOnC]
    by_cases hc : c = sep
    · rw [if_pos hc]
      simp
    · rw [if_neg hc]
      cases splitOnC sep cs <;> simp

theorem intercalateS_splitOnC (sep : Char) (s : Str) :
    intercalateS [sep] (splitOnC sep s) = s := by
  induction s with
  | nil => rfl
  | cons c cs ih =>
    simp only [splitOnC]
    by_cases hc : c = sep
    · rw [if_pos hc]
      cases hr : splitOnC sep cs with
      | nil => exact absurd hr (splitOnC_ne_nil sep cs)
      | cons h t =>
        show [] ++ [sep] ++ intercalateS [sep] (h :: t) = c :: cs
        rw [← hr, ih, hc]
        rfl
    · rw [if_neg hc]
      cases hr : splitOnC sep cs with
      | nil => exact absurd hr (splitOnC_ne_nil sep cs)
      | cons h t =>
        rw [hr] at ih
        cases t with
        | nil =>
          show c :: h = c :: cs
          rw [show intercalateS [sep] [h] = h from rfl] at ih
          rw [ih]
        | cons h2 t2 =>
          show (c :: h) ++ [sep] ++ intercalateS [sep] (h2 :: t2) = c :: cs
          show c :: (h ++ [sep] ++ intercalateS [sep] (h2 :: t2)) = c :: cs
          rw [show intercalateS [sep] (h :: h2 :: t2) =
            h ++ [sep] ++ intercalateS [sep] (h2 :: t2) from rfl] at ih
          rw [ih]

theorem suffix_sep_getLast (sep : Char) (l : List Str) :
    ∀ (first x : Str), l.getLast? = some x →
      (sep :: x) <:+ intercalateS [sep] (first :: l) := by
  induction l with
  | nil =>
    intro first x h
    exact absurd h (by simp)
  | cons y ys ih =>
    intro first x h
    cases ys with
    | nil =>
      have hx : y = x := by
        rw [show ([y] : List Str).getLast? = some y from rfl] at h
        exact Option.some.inj h
      show (sep :: x) <:+ first ++ [sep] ++ y
      rw [← hx, List.append_assoc]
      exact List.suffix_append first ([sep] ++ y)
    | cons z zs =>
      rw [List.getLast?_cons_cons] at h
      have hsub := ih y x h
      show (sep :: x) <:+ first ++ [sep] ++ intercalateS [sep] (y :: z :: zs)
      refine hsub.trans ?_
      rw [List.append_assoc]
      exact (List.suffix_append [sep] _).trans (List.suffix_append first _)

theorem getLast_suffix_intercalate (sep : Char) (l : List Str) :
    ∀ x : Str, l.getLast? = some x → x <:+ intercalateS [sep] l := by
  induction l with
  | nil =>
    intro x h
    exact absurd h (by simp)
  | cons y ys ih =>
    intro x h
    cases ys with
    | nil =>
      have hx : y = x := by
        rw [show ([y] : List Str).getLast? = some y from rfl] at h
        exact Option.some.inj h
      show x <:+ y
      rw [← hx]
    | cons z zs =>
      rw [List.getLast?_cons_cons] at h
      have hsub := ih x h
      show x <:+ y ++ [sep] ++ intercalateS [sep] (z :: zs)
      refine hsub.trans ?_
      rw [List.append_assoc]
      exact (List.suffix_append [sep] _).trans (List.suffix_append y _)

theorem fileExtension_suffix (nm ext : Str) (h : fileExtension nm = some ext) :
    ('.' :: ext) <:+ nm := by
  cases hs : splitOnC '.' nm with
  | nil => exact absurd hs (splitOnC_ne_nil '.' nm)
  | cons first rest =>
    cases rest with
    | nil =>
      simp only [fileExtension, hs] at h
      exact Option.noConfusion h
    | cons second rest2 =>
      simp only [fileExtension, hs] at h
      by_cases hc : first = [] ∧ rest2 = []
      · rw [if_pos hc] at h
        exact absurd h (by simp)
      · rw [if_neg hc] at h
        have hround : intercalateS ['.'] (first :: second :: rest2) = nm := by
          rw [← hs]
          exact intercalateS_splitOnC '.' nm
        rw [← hround]
        exact suffix_sep_getLast '.' (second :: rest2) first ext h

theorem suffix_getLast? {s t : Str} (h : s <:+ t) (hs : s ≠ []) :
    t.getLast? = s.getLast? := by
  obtain ⟨u, rfl⟩ := h
  exact List.getLast?_append_of_ne_nil u hs

theorem renderGo_bound (max_chars P : Nat) (cands : List (Str × Str)) :
    ∀ s : Str, (∀ pr ∈ cands, byteLen pr.1 ≤ P) →
      byteLen (renderGo max_chars cands s) ≤ max (byteLen s) (max_chars + P + 7) := by
  induction cands with
  | nil =>
    intro s _
    exact le_max_left _ _
  | cons pr rest ih =>
    intro s hP
    obtain ⟨p, txt⟩ := pr
    simp only [renderGo]
    by_cases hb : max_chars ≤ byteLen s
    · rw [if_pos hb]
      exact le_max_left _ _
    · rw [if_neg hb]
      refine le_trans (ih _ (fun q hq => hP q (List.mem_cons_of_mem _ hq))) ?_
      have ht := byteLen_truncate_le txt (max_chars - byteLen (s ++ p ++ (("\n---\n").data)))
      have hp : byteLen p ≤ P := hP (p, txt) (List.mem_cons_self _ _)
      have h5 : byteLen (['\n', '-', '-', '-', '\n'] : Str) = 5 := by decide
      have h2 : byteLen (['\n', '\n'] : Str) = 2 := by decide
      simp only [byteLen_append] at ht h5 h2 ⊢
      refine max_le (le_trans ?_ (le_max_right _ _)) (le_max_right _ _)
      omega

theorem FileContext.eq_of_fields {a b : FileContext}
    (h1 : a.language = b.language) (h2 : a.functions = b.functions) : a = b := by
  cases a
  cases b
  cases h1
  cases h2
  rfl

theorem insertA_not_mem_append {α : Type} (acc : List (Str × α)) (p : Str) (v : α)
    (h : ¬ p ∈ acc.map Prod.fst) : insertA acc p v = acc ++ [(p, v)] := by
  induction acc with
  | nil => rfl
  | cons hd t ih =>
    obtain ⟨k0, v0⟩ := hd
    rw [List.map_cons, List.mem_cons] at h
    push_neg at h
    rw [insertA_cons, if_neg (fun he => h.1 he.symm), ih h.2]
    rfl

theorem mergeFold_eq_append_map (old_ctx : ProjectContext) (l : List (Str × FileContext)) :
    ∀ acc : List (Str × FileContext),
      (∀ pf ∈ l, ¬ pf.1 ∈ acc.map Prod.fst) →
      (l.map Prod.fst).Nodup →
      l.foldl (fun acc pf => insertA acc pf.1 (mergeVal old_ctx pf.1 pf.2)) acc =
        acc ++ l.map (fun pf => (pf.1, mergeVal old_ctx pf.1 pf.2)) := by
  induction l with
  | nil =>
    intro acc _ _
    simp
  | cons pf rest ih =>
    intro acc hdisj hnodup
    obtain ⟨p, nf⟩ := pf
    rw [List.map_cons, List.nodup_cons] at hnodup
    dsimp only at hnodup
    simp only [List.foldl_cons]
    rw [insertA_not_mem_append acc p (mergeVal old_ctx p nf)
      (hdisj (p, nf) (List.mem_cons_self _ _))]
    rw [ih (acc ++ [(p, mergeVal old_ctx p nf)]) ?hdisj2 hnodup.2]
    · simp [List.append_assoc]
    case hdisj2 =>
      intro qf hq
      rw [List.map_append, List.mem_append]
      push_neg
      refine ⟨hdisj qf (List.mem_cons_of_mem _ hq), ?_⟩
      simp only [List.map_cons, List.map_nil, List.mem_singleton]
      intro he
      apply hnodup.1
      rw [← he]
      exact List.mem_map_of_mem Prod.fst hq

theorem lookupA_map_entry (old_ctx : ProjectContext) (l : List (Str × FileContext)) (k : Str) :
    lookupA (l.map (fun pf => (pf.1, mergeVal old_ctx pf.1 pf.2))) k =
      Option.map (mergeVal old_ctx k) (lookupA l k) := by
  induction l with
  | nil => rfl
  | cons pf rest ih =>
    obtain ⟨p, v⟩ := pf
    simp only [List.map_cons]
    by_cases hp : p = k
    · rw [lookupA_cons, lookupA_cons, if_pos hp, if_pos hp]
      subst hp
      rfl
    · rw [lookupA_cons, lookupA_cons, if_neg hp, if_neg hp, ih]

theorem merge_contexts_lookup (old_ctx new_ctx : ProjectContext)
    (hnodup : (new_ctx.files.map Prod.fst).Nodup) (p : Str) :
    lookupA (merge_contexts old_ctx new_ctx).files p =
      Option.map (mergeVal old_ctx p) (lookupA new_ctx.files p) := by
  rw [merge_contexts_files,
    mergeFold_eq_append_map old_ctx new_ctx.files []
      (fun pf _ => List.not_mem_nil pf.1) hnodup,
    List.nil_append, lookupA_map_entry]

theorem find?_name_of_nodup (l : List FunctionInfo)
    (hn : (l.map FunctionInfo.name).Nodup) (f : FunctionInfo) (hf : f ∈ l) :
    l.find? (fun g => decide (g.name = f.name)) = some f := by
  induction l with
  | nil => cases hf
  | cons g rest ih =>
    rw [List.map_cons, List.nodup_cons] at hn
    rcases List.mem_cons.mp hf with rfl | hf1
    · rw [find?_cons_eq, if_pos (by simp)]
    · have hne : ¬ g.name = f.name := by
        intro he
        apply hn.1
        rw [he]
        exact List.mem_map_of_mem FunctionInfo.name hf1
      rw [find?_cons_eq, if_neg (by simpa using hne), ih hn.2 hf1]

theorem lastByName_of_nodup (fs : List FunctionInfo)
    (hn : (fs.map FunctionInfo.name).Nodup) (f : FunctionInfo) (hf : f ∈ fs) :
    lastByName fs f.name = some f := by
  unfold lastByName
  have hn2 : (fs.reverse.map FunctionInfo.name).Nodup := by
    rw [List.map_reverse, List.nodup_reverse]
    exact hn
  exact find?_name_of_nodup fs.reverse hn2 f (List.mem_reverse.mpr hf)

theorem mergeOne_clearSummary (fs : List FunctionInfo)
    (hn : (fs.map FunctionInfo.name).Nodup) (f : FunctionInfo) (hf : f ∈ fs) :
    mergeOne (buildOldMap fs) (clearSummary f) = f := by
  unfold mergeOne
  have hname : (clearSummary f).name = f.name := rfl
  rw [hname, buildOldMap_lookup, lastByName_of_nodup fs hn f hf]
  cases f with
  | mk nm ln sm hs => simp [clearSummary]

theorem merge_unchanged_file (cf newf : FileContext)
    (hlang : newf.language = cf.language)
    (hfns : newf.functions = cf.functions.map clearSummary)
    (hn : (cf.functions.map FunctionInfo.name).Nodup) :
    merge_file_contexts cf newf = cf := by
  apply FileContext.eq_of_fields
  · exact hlang
  · rw [merge_functions_map, hfns, List.map_map]
    have h : ∀ f ∈ cf.functions,
        (mergeOne (buildOldMap cf.functions) ∘ clearSummary) f = id f :=
      fun f hf => mergeOne_clearSummary cf.functions hn f hf
    rw [List.map_congr_left h, List.map_id]

theorem detect_language_last (ext : Str) (h : (detect_language ext).isSome = true) :
    ∃ c, (toLowerS ext).getLast? = some c ∧ ¬ c = 'e' ∧ ¬ c = 'd' := by
  simp only [detect_language] at h
  by_cases h1 : toLowerS ext = ("rs").data
  · exact ⟨'s', by rw [h1]; decide, by decide, by decide⟩
  rw [if_neg h1] at h
  by_cases h2 : toLowerS ext = ("py").data
  · exact ⟨'y', by rw [h2]; decide, by decide, by decide⟩
  rw [if_neg h2] at h
  by_cases h3 : toLowerS ext = ("js").data
  · exact ⟨'s', by rw [h3]; decide, by decide, by decide⟩
  rw [if_neg h3] at h
  by_cases h4 : toLowerS ext = ("ts").data
  · exact ⟨'s', by rw [h4]; decide, by decide, by decide⟩
  rw [if_neg h4] at h
  by_cases h5 : toLowerS ext = ("java").data
  · exact ⟨'a', by rw [h5]; decide, by decide, by decide⟩
  rw [if_neg h5] at h
  by_cases h6 : toLowerS ext = ("go").data
  · exact ⟨'o', by rw [h6]; decide, by decide, by decide⟩
  rw [if_neg h6] at h
  by_cases h7 : toLowerS ext = ("cpp").data
  · exact ⟨'p', by rw [h7]; decide, by decide, by decide⟩
  rw [if_neg h7] at h
  by_cases h8 : toLowerS ext = ("cc").data
  · exact ⟨'c', by rw [h8]; decide, by decide, by decide⟩
  rw [if_neg h8] at h
  by_cases h9 : toLowerS ext = ("cxx").data
  · exact ⟨'x', by rw [h9]; decide, by decide, by decide⟩
  rw [if_neg h9] at h
  by_cases h10 : toLowerS ext = ("c++").data
  · exact ⟨'+', by rw [h10]; decide, by decide, by decide⟩
  rw [if_neg h10] at h
  by_cases h11 : toLowerS ext = ("c").data
  · exact ⟨'c', by rw [h11]; decide, by decide, by decide⟩
  rw [if_neg h11] at h
  exact absurd h (by simp)

theorem goodKey_not_readme (k : Str) (hg : GoodKey k) : isReadme k = false := by
  obtain ⟨ext, hacc, hsuf⟩ := hg
  obtain ⟨c, hlast, hce, hcd⟩ := detect_language_last ext hacc
  have hext_ne : ext ≠ [] := by
    intro hnil
    rw [hnil] at hlast
    exact Option.noConfusion hlast
  have hklast : k.getLast? = ext.getLast? := by
    rw [suffix_getLast? hsuf (by simp)]
    cases hx : ext with
    | nil => exact absurd hx hext_ne
    | cons y ys => rw [List.getLast?_cons_cons]
  have hlow : (toLowerS k).getLast? = some c := by
    unfold toLowerS at hlast ⊢
    rw [List.getLast?_map, hklast, ← List.getLast?_map]
    exact hlast
  unfold isReadme
  have hrm : endsWithS (toLowerS k) (("readme.md").data) = false := by
    unfold endsWithS
    rw [decide_eq_false_iff_not]
    intro hsuf2
    have hl2 := suffix_getLast? hsuf2 (by decide)
    rw [hlow] at hl2
    have hd2 : (("readme.md").data : Str).getLast? = some 'd' := by decide
    rw [hd2] at hl2
    exact hcd (Option.some.inj hl2)
  have hrm2 : endsWithS (toLowerS k) (("readme").data) = false := by
    unfold endsWithS
    rw [decide_eq_false_iff_not]
    intro hsuf2
    have hl2 := suffix_getLast? hsuf2 (by decide)
    rw [hlow] at hl2
    have he2 : (("readme").data : Str).getLast? = some 'e' := by decide
    rw [he2] at hl2
    exact hce (Option.some.inj hl2)
  rw [hrm, hrm2]
  rfl

theorem stripDot_ok {comps rel : List Str} (h : stripDot comps = Except.ok rel) :
    comps = ['.'] :: rel := by
  cases comps with
  | nil => exact Except.noConfusion h
  | cons c r =>
    by_cases hc : c = ['.']
    · simp only [stripDot, if_pos hc] at h
      cases h
      rw [hc]
    · simp only [stripDot, if_neg hc] at h
      exact Except.noConfusion h

theorem stripDot_head {comps : List Str} (h : comps.head? = some ['.']) :
    stripDot comps = Except.ok comps.tail := by
  cases comps with
  | nil => exact Option.noConfusion h
  | cons c r =>
    have hc : c = ['.'] := Option.some.inj h
    simp only [stripDot, if_pos hc]
    rfl

theorem dirStep_files {w : World} {en : WEntry} {st st1 : BuildSt}
    (h : dirStep w en st = Except.ok st1) : st1.2 = st.2 := by
  unfold dirStep at h
  by_cases hd : en.isDir = true
  · rw [if_pos hd] at h
    cases hrd : w.readDir en.comps with
    | error e =>
      rw [hrd] at h
      exact Except.noConfusion h
    | ok children =>
      simp only [hrd] at h
      cases hsp : stripDot en.comps with
      | error e =>
        rw [hsp] at h
        exact Except.noConfusion h
      | ok rel =>
        simp only [hsp] at h
        cases h
        rfl
  · rw [if_neg hd] at h
    cases h
    rfl

theorem dirStep_total {w : World} {en : WEntry} (st : BuildSt)
    (hhead : en.comps.head? = some ['.'])
    (hdir : en.isDir = true → ∃ cs, w.readDir en.comps = Except.ok cs) :
    ∃ st1, dirStep w en st = Except.ok st1 ∧ st1.2 = st.2 := by
  unfold dirStep
  by_cases hd : en.isDir = true
  · obtain ⟨cs, hcs⟩ := hdir hd
    rw [if_pos hd]
    refine ⟨(insertA st.1 (pathStr en.comps.tail) ⟨cs⟩, st.2), ?_, rfl⟩
    simp only [hcs, stripDot_head hhead]
  · rw [if_neg hd]
    exact ⟨st, rfl, rfl⟩

theorem fileStep_total {hashFn : Str → Str} {w : World} {en : WEntry} (st : BuildSt)
    (hhead : en.comps.head? = some ['.']) :
    ∃ st1, fileStep hashFn w en st = Except.ok st1 ∧
      (∀ k, k ∈ st.2.map Prod.fst → k ∈ st1.2.map Prod.fst) := by
  by_cases hf : en.isFile = true
  · cases hext : fileExtension (fileNameOf en) with
    | none =>
      refine ⟨st, ?_, fun k hk => hk⟩
      unfold fileStep
      rw [if_pos hf]
      simp only [hext]
    | some ext =>
      cases hlang : detect_language ext with
      | none =>
        refine ⟨st, ?_, fun k hk => hk⟩
        unfold fileStep
        rw [if_pos hf]
        simp only [hext, hlang]
      | some lang =>
        cases hrf : w.readFile (pathStr en.comps) with
        | none =>
          refine ⟨st, ?_, fun k hk => hk⟩
          unfold fileStep
          rw [if_pos hf]
          simp only [hext, hlang, hrf]
        | some contents =>
          refine ⟨(st.1, insertA st.2 (pathStr en.comps.tail)
            ⟨lang, extract_functions hashFn contents lang⟩), ?_,
            fun k hk => by rw [mem_keys_insertA]; exact Or.inr hk⟩
          unfold fileStep
          rw [if_pos hf]
          simp only [hext, hlang, hrf, stripDot_head hhead]
  · refine ⟨st, ?_, fun k hk => hk⟩
    unfold fileStep
    rw [if_neg hf]

theorem fileStep_readable {hashFn : Str → Str} {w : World} {en : WEntry} (st : BuildSt)
    (hhead : en.comps.head? = some ['.'])
    (hread : readableSourceEntry w en) :
    ∃ st1, fileStep hashFn w en st = Except.ok st1 ∧
      pathStr en.comps.tail ∈ st1.2.map Prod.fst ∧
      (∀ k, k ∈ st.2.map Prod.fst → k ∈ st1.2.map Prod.fst) := by
  obtain ⟨hf, _, ext, lang, c, hext, hlang, hrf⟩ := hread
  unfold fileStep
  rw [if_pos hf]
  simp only [hext, hlang, hrf, stripDot_head hhead]
  refine ⟨_, rfl, ?_, ?_⟩
  · rw [mem_keys_insertA]
    exact Or.inl rfl
  · intro k hk
    rw [mem_keys_insertA]
    exact Or.inr hk

theorem procEntry_spec (hashFn : Str → Str) (w : World) (st : BuildSt) (en : WEntry)
    (hhead : en.comps.head? = some ['.'])
    (hdir : en.isDir = true → ∃ cs, w.readDir en.comps = Except.ok cs) :
    ∃ st1, procEntry hashFn w st en = Except.ok st1 ∧
      (∀ k, k ∈ st.2.map Prod.fst → k ∈ st1.2.map Prod.fst) ∧
      (readableSourceEntry w en → pathStr en.comps.tail ∈ st1.2.map Prod.fst) := by
  unfold procEntry
  by_cases hig : en.comps.any (fun c => c ∈ ignored_dirs) = true
  · rw [if_pos hig]
    refine ⟨st, rfl, fun k hk => hk, ?_⟩
    rintro ⟨_, ⟨hsf, _⟩, _⟩
    rw [hsf] at hig
    exact Bool.noConfusion hig
  · rw [if_neg hig]
    by_cases hhid : hiddenSkip (fileNameOf en) = true
    · rw [if_pos hhid]
      refine ⟨st, rfl, fun k hk => hk, ?_⟩
      rintro ⟨_, ⟨_, hsf2⟩, _⟩
      rw [hsf2] at hhid
      exact Bool.noConfusion hhid
    · rw [if_neg hhid]
      obtain ⟨stD, hD, hDfiles⟩ := dirStep_total st hhead hdir
      simp only [hD]
      by_cases hreadable : readableSourceEntry w en
      · obtain ⟨st1, hF, hmem, hsub⟩ := fileStep_readable stD hhead hreadable
        exact ⟨st1, hF, fun k hk => hsub k (by rw [hDfiles]; exact hk), fun _ => hmem⟩
      · obtain ⟨st1, hF, hsub⟩ := fileStep_total stD hhead
        exact ⟨st1, hF, fun k hk => hsub k (by rw [hDfiles]; exact hk),
          fun hr => absurd hr hreadable⟩

theorem buildGo_ok (hashFn : Str → Str) (w : World) (entries : List (Except Unit WEntry)) :
    (∀ e ∈ entries, ∃ en : WEntry, e = Except.ok en ∧ en.comps.head? = some ['.']) →
    (∀ en : WEntry, Except.ok en ∈ entries → en.isDir = true →
      ∃ cs, w.readDir en.comps = Except.ok cs) →
    ∀ st : BuildSt, ∃ st2, buildGo hashFn w entries st = Except.ok st2 ∧
      (∀ k, k ∈ st.2.map Prod.fst → k ∈ st2.2.map Prod.fst) ∧
      (∀ en : WEntry, Except.ok en ∈ entries → readableSourceEntry w en →
        pathStr en.comps.tail ∈ st2.2.map Prod.fst) := by
  induction entries with
  | nil =>
    intro _ _ st
    exact ⟨st, rfl, fun k hk => hk, fun en hen => absurd hen (List.not_mem_nil _)⟩
  | cons e rest ih =>
    intro hwalk hdir st
    obtain ⟨en, rfl, hhead⟩ := hwalk e (List.mem_cons_self _ _)
    obtain ⟨st1, hproc, hsub1, hkey1⟩ := procEntry_spec hashFn w st en hhead
      (hdir en (List.mem_cons_self _ _))
    obtain ⟨st2, hgo, hsub2, hkey2⟩ := ih
      (fun e2 he2 => hwalk e2 (List.mem_cons_of_mem _ he2))
      (fun en2 he2 hd2 => hdir en2 (List.mem_cons_of_mem _ he2) hd2) st1
    refine ⟨st2, ?_, fun k hk => hsub2 k (hsub1 k hk), ?_⟩
    · simp only [buildGo, hproc]
      exact hgo
    · intro en2 hen2 hread
      rcases List.mem_cons.mp hen2 with heq | hmem
      · have hee : en2 = en := by injection heq
        subst hee
        exact hsub2 _ (hkey1 hread)
      · exact hkey2 en2 hmem hread

theorem procEntry_files_cases {hashFn : Str → Str} {w : World} {st st1 : BuildSt}
    {en : WEntry} (hproc : procEntry hashFn w st en = Except.ok st1) :
    st1.2 = st.2 ∨
    (∃ ext lang contents,
       fileExtension (fileNameOf en) = some ext ∧
       detect_language ext = some lang ∧
       hiddenSkip (fileNameOf en) = false ∧
       en.comps = ['.'] :: en.comps.tail ∧
       st1.2 = insertA st.2 (pathStr en.comps.tail)
         ⟨lang, extract_functions hashFn contents lang⟩) := by
  unfold procEntry at hproc
  by_cases hig : en.comps.any (fun c => c ∈ ignored_dirs) = true
  · rw [if_pos hig] at hproc
    cases hproc
    exact Or.inl rfl
  · rw [if_neg hig] at hproc
    by_cases hhid : hiddenSkip (fileNameOf en) = true
    · rw [if_pos hhid] at hproc
      cases hproc
      exact Or.inl rfl
    · rw [if_neg hhid] at hproc
      have hhidf : hiddenSkip (fileNameOf en) = false := by
        revert hhid
        cases hiddenSkip (fileNameOf en) <;> simp
      cases hD : dirStep w en st with
      | error e =>
        rw [hD] at hproc
        exact Except.noConfusion hproc
      | ok stD =>
        simp only [hD] at hproc
        have hDf := dirStep_files hD
        unfold fileStep at hproc
        by_cases hf : en.isFile = true
        · rw [if_pos hf] at hproc
          cases hext : fileExtension (fileNameOf en) with
          | none =>
            simp only [hext] at hproc
            cases hproc
            exact Or.inl hDf
          | some ext =>
            simp only [hext] at hproc
            cases hlang : detect_language ext with
            | none =>
              simp only [hlang] at hproc
              cases hproc
              exact Or.inl hDf
            | some lang =>
              simp only [hlang] at hproc
              cases hrf : w.readFile (pathStr en.comps) with
              | none =>
                simp only [hrf] at hproc
                cases hproc
                exact Or.inl hDf
              | some contents =>
                simp only [hrf] at hproc
                cases hsp : stripDot en.comps with
                | error e =>
                  rw [hsp] at hproc
                  exact Except.noConfusion hproc
                | ok rel =>
                  simp only [hsp] at hproc
                  have hcomps := stripDot_ok hsp
                  have hrel : rel = en.comps.tail := by
                    rw [hcomps]
                    rfl
                  cases hproc
                  refine Or.inr ⟨ext, lang, contents, rfl, hlang, hhidf, ?_, ?_⟩
                  · rw [hcomps]
                    rfl
                  · rw [← hrel, hDf]
        · rw [if_neg hf] at hproc
          cases hproc
          exact Or.inl hDf

theorem goodKey_insert {en : WEntry} {ext : Str}
    (hext : fileExtension (fileNameOf en) = some ext)
    (hacc : (detect_language ext).isSome = true)
    (hcomps : en.comps = ['.'] :: en.comps.tail)
    (hhidf : hiddenSkip (fileNameOf en) = false) :
    GoodKey (pathStr en.comps.tail) := by
  cases hrel : en.comps.tail with
  | nil =>
    exfalso
    have hname : fileNameOf en = ['.'] := by
      unfold fileNameOf
      rw [hcomps, hrel]
      rfl
    rw [hname] at hhidf
    have hh : hiddenSkip (['.'] : Str) = true := by decide
    rw [hh] at hhidf
    exact Bool.noConfusion hhidf
  | cons y ys =>
    have hne : (y :: ys : List Str) ≠ [] := by simp
    obtain ⟨x, hx⟩ : ∃ x, (y :: ys : List Str).getLast? = some x :=
      ⟨(y :: ys).getLast hne, List.getLast?_eq_getLast _ hne⟩
    have hname : fileNameOf en = x := by
      unfold fileNameOf
      rw [hcomps, hrel, List.getLastD_cons, List.getLastD_eq_getLast?, hx]
      rfl
    refine ⟨ext, hacc, ?_⟩
    have h1 : ('.' :: ext) <:+ x := by
      rw [← hname]
      exact fileExtension_suffix _ ext hext
    have h2 : x <:+ pathStr (y :: ys) :=
      getLast_suffix_intercalate '/' (y :: ys) x hx
    exact h1.trans h2

theorem buildGo_goodKeys (hashFn : Str → Str) (w : World)
    (entries : List (Except Unit WEntry)) :
    ∀ st st2 : BuildSt, buildGo hashFn w entries st = Except.ok st2 →
      (∀ kv ∈ st.2, GoodKey kv.1) → (∀ kv ∈ st2.2, GoodKey kv.1) := by
  induction entries with
  | nil =>
    intro st st2 hgo hinv
    cases hgo
    exact hinv
  | cons e rest ih =>
    intro st st2 hgo hinv
    cases e with
    | error u => exact Except.noConfusion hgo
    | ok en =>
      simp only [buildGo] at hgo
      cases hproc : procEntry hashFn w st en with
      | error u =>
        rw [hproc] at hgo
        exact Except.noConfusion hgo
      | ok st1 =>
        simp only [hproc] at hgo
        apply ih st1 st2 hgo
        intro kv hkv
        rcases procEntry_files_cases hproc with heq |
          ⟨ext, lang, contents, hext, hlang, hhidf, hcomps, heq⟩
        · rw [heq] at hkv
          exact hinv kv hkv
        · rw [heq] at hkv
          rcases mem_insertA _ _ _ _ hkv with rfl | hkv2
          · exact goodKey_insert hext (by rw [hlang]; rfl) hcomps hhidf
          · exact hinv kv hkv2

theorem build_context_goodKeys (hashFn : Str → Str) (w : World) (ctx : ProjectContext)
    (hok : build_context hashFn w = Except.ok ctx) :
    ∀ kv ∈ ctx.files, GoodKey kv.1 := by
  unfold build_context at hok
  cases hgo : buildGo hashFn w w.walk ([], []) with
  | error u =>
    rw [hgo] at hok
    exact Except.noConfusion hok
  | ok st =>
    simp only [hgo] at hok
    cases hok
    exact buildGo_goodKeys hashFn w w.walk ([], []) st hgo
      (fun kv hkv => absurd hkv (List.not_mem_nil _))

theorem push_file_keys (w : World) (ctx : ProjectContext) (p : Str) (st : CandSt)
    (mb : Nat) (hinv : ∀ q ∈ st.2, containsKeyA ctx.files q.1 = true) :
    ∀ q ∈ (push_file w ctx p st mb).2, containsKeyA ctx.files q.1 = true := by
  unfold push_file
  by_cases hg : p ∈ st.1 ∨ containsKeyA ctx.files p = false
  · rw [if_pos hg]
    exact hinv
  · rw [if_neg hg]
    push_neg at hg
    have hp : containsKeyA ctx.files p = true := by
      cases hc : containsKeyA ctx.files p
      · exact absurd hc hg.2
      · rfl
    cases hrf : w.readFile p with
    | none => exact hinv
    | some text =>
      intro q hq
      rcases List.mem_append.mp hq with hq1 | hq2
      · exact hinv q hq1
      · rw [List.mem_singleton] at hq2
        rw [hq2]
        exact hp

theorem pushLoop_keys (w : World) (ctx : ProjectContext) (mf mb : Nat)
    (paths : List Str) :
    ∀ st : CandSt, (∀ q ∈ st.2, containsKeyA ctx.files q.1 = true) →
      ∀ q ∈ (pushLoop w ctx mf mb paths st).1.2, containsKeyA ctx.files q.1 = true := by
  induction paths with
  | nil =>
    intro st hinv
    exact hinv
  | cons p ps ih =>
    intro st hinv
    simp only [pushLoop]
    have h1 := push_file_keys w ctx p st mb hinv
    by_cases hl : mf ≤ (push_file w ctx p st mb).2.length
    · rw [if_pos hl]
      exact h1
    · rw [if_neg hl]
      exact ih _ h1

theorem bucketsFrom2_keys (w : World) (ctx : ProjectContext) (mf mb : Nat) (st : CandSt)
    (hinv : ∀ q ∈ st.2, containsKeyA ctx.files q.1 = true) :
    ∀ q ∈ bucketsFrom2 w ctx mf mb st, containsKeyA ctx.files q.1 = true := by
  simp only [bucketsFrom2]
  have h1 := push_file_keys w ctx (("src/main.rs").data) st mb hinv
  by_cases hb1 : mf ≤ (push_file w ctx (("src/main.rs").data) st mb).2.length
  · rw [if_pos hb1]
    exact h1
  · rw [if_neg hb1]
    have h2 := push_file_keys w ctx (("src/lib.rs").data) _ mb h1
    by_cases hb2 : mf ≤ (push_file w ctx (("src/lib.rs").data)
        (push_file w ctx (("src/main.rs").data) st mb) mb).2.length
    · rw [if_pos hb2]
      exact h2
    · rw [if_neg hb2]
      have h3 := pushLoop_keys w ctx mf mb
        (sortByB strLeb ((ctx.files.map Prod.fst).filter
          (fun k => startsWithS k (("src/bin/").data)))) _ h2
      cases hPL3 : pushLoop w ctx mf mb
        (sortByB strLeb ((ctx.files.map Prod.fst).filter
          (fun k => startsWithS k (("src/bin/").data))))
        (push_file w ctx (("src/lib.rs").data)
          (push_file w ctx (("src/main.rs").data) st mb) mb) with
      | mk st3 early3 =>
        rw [hPL3] at h3
        cases early3 with
        | true => exact h3
        | false =>
          dsimp only
          have h4 := pushLoop_keys w ctx mf mb
            (sortByB strLeb ((ctx.files.map Prod.fst).filter
              (fun k => candPats.any (fun p => containsS (toLowerS k) p)))) st3 h3
          cases hPL4 : pushLoop w ctx mf mb
            (sortByB strLeb ((ctx.files.map Prod.fst).filter
              (fun k => candPats.any (fun p => containsS (toLowerS k) p)))) st3 with
          | mk st4 early4 =>
            rw [hPL4] at h4
            cases early4 with
            | true => exact h4
            | false =>
              exact pushLoop_keys w ctx mf mb _ st4 h4

theorem build_entry_candidates_keys (w : World) (ctx : ProjectContext) (mf mb : Nat) :
    ∀ q ∈ build_entry_candidates w ctx mf mb, containsKeyA ctx.files q.1 = true := by
  unfold build_entry_candidates
  cases hfind : (ctx.files.map Prod.fst).find? (fun k => isReadme k) with
  | none =>
    exact bucketsFrom2_keys w ctx mf mb ([], [])
      (fun q hq => absurd hq (List.not_mem_nil _))
  | some readme =>
    dsimp only
    have h1 := push_file_keys w ctx readme ([], []) mb
      (fun q hq => absurd hq (List.not_mem_nil _))
    by_cases hb : mf ≤ (push_file w ctx readme ([], []) mb).2.length
    · rw [if_pos hb]
      exact h1
    · rw [if_neg hb]
      exact bucketsFrom2_keys w ctx mf mb _ h1

-- ======================================================================
-- Claims
-- ======================================================================

/-- C1, counterexample.  The claim predicts an absent summary whenever no
old record bears the new record's name, and `old_record.summary` whenever
SOME old record with that name has an equal hash.  The code instead (i)
keeps the fresh record's own summary when the name is new, and (ii)
matches only the LAST old record with the name: here an old record with
an equal hash exists, yet the merged summary is cleared. -/
theorem merge_keeps_new_summary_for_new_functions :
    ((∀ f ∈ ([] : List FunctionInfo), ¬ f.name = ("f").data) ∧
     (merge_file_contexts ⟨("rust").data, []⟩
        ⟨("rust").data, [⟨("f").data, 1, some (("s").data), ("h").data⟩]⟩).functions =
       [⟨("f").data, 1, some (("s").data), ("h").data⟩]) ∧
    ((∃ f ∈ [(⟨("g").data, 1, some (("s1").data), ("h1").data⟩ : FunctionInfo),
             ⟨("g").data, 2, some (("s2").data), ("h2").data⟩],
        f.name = ("g").data ∧ f.hash = ("h1").data) ∧
     (merge_file_contexts
        ⟨("rust").data, [⟨("g").data, 1, some (("s1").data), ("h1").data⟩,
                         ⟨("g").data, 2, some (("s2").data), ("h2").data⟩]⟩
        ⟨("rust").data, [⟨("g").data, 3, none, ("h1").data⟩]⟩).functions =
       [⟨("g").data, 3, none, ("h1").data⟩]) := by
  constructor
  · exact ⟨by simp, by decide⟩
  · exact ⟨by decide, by decide⟩

/-- C1 (amended): `merge_file_contexts` emits, in the same position, a
record equal to each fresh record except possibly its summary; the
summary is taken from the LAST old record with the same name when that
record's hash matches, cleared when it differs, and left as the fresh
record's own summary when no old record bears the name. -/
theorem merge_file_contexts_pointwise (old newf : FileContext) (i : Nat) (nf : FunctionInfo)
    (hi : newf.functions[i]? = some nf) :
    (merge_file_contexts old newf).functions.length = newf.functions.length ∧
    ∃ g, (merge_file_contexts old newf).functions[i]? = some g ∧
      g.name = nf.name ∧ g.line = nf.line ∧ g.hash = nf.hash ∧
      g.summary = (match lastByName old.functions nf.name with
        | none => nf.summary
        | some of => if of.hash = nf.hash then of.summary else none) := by
  rw [merge_functions_map]
  refine ⟨by simp, mergeOne (buildOldMap old.functions) nf, ?_, ?_, ?_, ?_, ?_⟩
  · simp [List.getElem?_map, hi]
  · exact mergeOne_name _ _
  · exact mergeOne_line _ _
  · exact mergeOne_hash _ _
  · exact mergeOne_summary _ _

/-- C1, witness for the amended theorem. -/
theorem merge_file_contexts_pointwise_concrete :
    (merge_file_contexts ⟨("rust").data, [⟨("m").data, 1, some (("doc").data), ("h").data⟩]⟩
       ⟨("rust").data, [⟨("m").data, 1, none, ("h").data⟩]⟩).functions.length = 1 ∧
    ∃ g, (merge_file_contexts ⟨("rust").data, [⟨("m").data, 1, some (("doc").data), ("h").data⟩]⟩
       ⟨("rust").data, [⟨("m").data, 1, none, ("h").data⟩]⟩).functions[0]? = some g ∧
      g.name = ("m").data ∧ g.line = 1 ∧ g.hash = ("h").data ∧
      g.summary = (match lastByName [⟨("m").data, 1, some (("doc").data), ("h").data⟩] (("m").data) with
        | none => (none : Option Str)
        | some of => if of.hash = ("h").data then of.summary else none) :=
  merge_file_contexts_pointwise
    ⟨("rust").data, [⟨("m").data, 1, some (("doc").data), ("h").data⟩]⟩
    ⟨("rust").data, [⟨("m").data, 1, none, ("h").data⟩]⟩ 0
    ⟨("m").data, 1, none, ("h").data⟩ (by decide)

/-- C2: deletion is implicit at both levels: a function name present only
in the old file never appears in the merged file, and a path present only
in `old.files` never appears in `merge_contexts(old, new).files`. -/
theorem merge_drops_deleted (oldf newf : FileContext) (old new : ProjectContext)
    (nm p : Str) :
    ((∃ f ∈ oldf.functions, f.name = nm) →
     (∀ f ∈ newf.functions, ¬ f.name = nm) →
     ∀ g ∈ (merge_file_contexts oldf newf).functions, ¬ g.name = nm) ∧
    (p ∈ old.files.map Prod.fst →
     ¬ p ∈ new.files.map Prod.fst →
     ¬ p ∈ (merge_contexts old new).files.map Prod.fst) := by
  constructor
  · intro _ hnew g hg
    rw [merge_functions_map] at hg
    obtain ⟨nf, hnf, rfl⟩ := List.mem_map.mp hg
    rw [mergeOne_name]
    exact hnew nf hnf
  · intro _ hnot hmem
    rw [merge_contexts_files] at hmem
    rcases mem_keys_mergeFold old new.files [] p hmem with h1 | h1
    · simp at h1
    · exact hnot h1

/-- C2, witness. -/
theorem merge_drops_deleted_concrete :
    (∀ g ∈ (merge_file_contexts ⟨("rust").data, [⟨("g").data, 1, none, ("h").data⟩]⟩
        ⟨("rust").data, []⟩).functions, ¬ g.name = ("g").data) ∧
    ¬ (("a").data ∈ (merge_contexts
        ⟨[], [(("a").data, FileContext.mk (("rust").data) [])], [], none⟩
        ⟨[], [], [], none⟩).files.map Prod.fst) :=
  ⟨(merge_drops_deleted ⟨("rust").data, [⟨("g").data, 1, none, ("h").data⟩]⟩
      ⟨("rust").data, []⟩
      ⟨[], [(("a").data, FileContext.mk (("rust").data) [])], [], none⟩
      ⟨[], [], [], none⟩ (("g").data) (("a").data)).1 (by decide) (by decide),
   (merge_drops_deleted ⟨("rust").data, [⟨("g").data, 1, none, ("h").data⟩]⟩
      ⟨("rust").data, []⟩
      ⟨[], [(("a").data, FileContext.mk (("rust").data) [])], [], none⟩
      ⟨[], [], [], none⟩ (("g").data) (("a").data)).2 (by decide) (by decide)⟩

/-- C3, counterexample.  Idempotence of the merge on an unchanged tree
fails when a file contains two functions with the same name: the claim's
hypotheses hold at `dupCtx`/`dupNew` (same folders, same keys, same
language and same (name, line, hash) triples with fresh summaries
absent), yet the merged context differs from `dupCtx` — the name-keyed
merge map collapses the duplicate to the last record, so the first
record's summary "x" comes back as "y". -/
theorem merge_not_idempotent_with_duplicate_names :
    lookupA dupNew.files (("a.rs").data) = some dupFileNew ∧
    lookupA dupCtx.files (("a.rs").data) = some dupFileOld ∧
    dupFileNew.language = dupFileOld.language ∧
    dupFileNew.functions = dupFileOld.functions.map clearSummary ∧
    dupNew.folders = dupCtx.folders ∧
    dupNew.files.map Prod.fst = dupCtx.files.map Prod.fst ∧
    ¬ lookupA (merge_contexts dupCtx dupNew).files (("a.rs").data) =
        lookupA dupCtx.files (("a.rs").data) := by
  refine ⟨rfl, rfl, rfl, by decide, rfl, rfl, by decide⟩

/-- C3 (amended): for every snapshot `ctx` and freshly built snapshot
`new` with the same folders, the same file keys, and for each path the
same language and the same (name, line, hash) triples with all fresh
summaries absent, `merge_contexts ctx new` equals `ctx` up to
map-ordering normalization — PROVIDED every file's function names are
pairwise distinct (duplicate names break idempotence, see the
counterexample). -/
theorem merge_idempotent_on_unchanged_tree (ctx new : ProjectContext)
    (hkeys : (new.files.map Prod.fst).Nodup)
    (hfolders : new.folders = ctx.folders)
    (hsame : ∀ p : Str, p ∈ new.files.map Prod.fst ↔ p ∈ ctx.files.map Prod.fst)
    (hfile : ∀ p nf cf, lookupA new.files p = some nf → lookupA ctx.files p = some cf →
      nf.language = cf.language ∧ nf.functions = cf.functions.map clearSummary)
    (hnames : ∀ p cf, lookupA ctx.files p = some cf →
      (cf.functions.map FunctionInfo.name).Nodup) :
    (merge_contexts ctx new).folders = ctx.folders ∧
    (∀ p, lookupA (merge_contexts ctx new).files p = lookupA ctx.files p) ∧
    (merge_contexts ctx new).entry_points = ctx.entry_points ∧
    (merge_contexts ctx new).project_brief = ctx.project_brief := by
  refine ⟨hfolders, ?_, rfl, rfl⟩
  intro p
  rw [merge_contexts_lookup ctx new hkeys p]
  cases hnew : lookupA new.files p with
  | none =>
    have hmem : ¬ p ∈ new.files.map Prod.fst := by
      rw [← lookupA_isSome_iff_mem_keys, hnew]
      simp
    have hmem2 : ¬ p ∈ ctx.files.map Prod.fst := fun hc => hmem ((hsame p).mpr hc)
    cases hl : lookupA ctx.files p with
    | none => rfl
    | some cf =>
      exact absurd ((lookupA_isSome_iff_mem_keys ctx.files p).mp (by rw [hl]; rfl)) hmem2
  | some nf =>
    have hmemn : p ∈ ctx.files.map Prod.fst :=
      (hsame p).mp ((lookupA_isSome_iff_mem_keys _ _).mp (by rw [hnew]; rfl))
    have hsome := (lookupA_isSome_iff_mem_keys ctx.files p).mpr hmemn
    cases hctx : lookupA ctx.files p with
    | none => rw [hctx] at hsome; exact absurd hsome (by simp)
    | some cf =>
      obtain ⟨hlang, hfns⟩ := hfile p nf cf hnew hctx
      show some (mergeVal ctx p nf) = some cf
      unfold mergeVal
      rw [hctx]
      show some (merge_file_contexts cf nf) = some cf
      rw [merge_unchanged_file cf nf hlang hfns (hnames p cf hctx)]

/-- C3, witness for the amended theorem. -/
theorem merge_idempotent_on_unchanged_tree_concrete :
    (merge_contexts wCtx wNew).folders = wCtx.folders ∧
    lookupA (merge_contexts wCtx wNew).files (("a.rs").data) =
      lookupA wCtx.files (("a.rs").data) ∧
    (merge_contexts wCtx wNew).entry_points = wCtx.entry_points ∧
    (merge_contexts wCtx wNew).project_brief = wCtx.project_brief := by
  have h := merge_idempotent_on_unchanged_tree wCtx wNew (by decide) rfl
    (fun p => Iff.rfl) ?hfile ?hnames
  · exact ⟨h.1, h.2.1 (("a.rs").data), h.2.2.1, h.2.2.2⟩
  case hfile =>
    intro p nf cf h1 h2
    by_cases hp : ("a.rs").data = p
    · rw [show wNew.files = [(("a.rs").data, wFileNew)] from rfl, lookupA_cons, if_pos hp] at h1
      rw [show wCtx.files = [(("a.rs").data, wFileOld)] from rfl, lookupA_cons, if_pos hp] at h2
      cases h1
      cases h2
      exact ⟨rfl, by decide⟩
    · rw [show wNew.files = [(("a.rs").data, wFileNew)] from rfl, lookupA_cons, if_neg hp] at h1
      exact absurd h1 (by simp [lookupA_nil])
  case hnames =>
    intro p cf h2
    by_cases hp : ("a.rs").data = p
    · rw [show wCtx.files = [(("a.rs").data, wFileOld)] from rfl, lookupA_cons, if_pos hp] at h2
      cases h2
      decide
    · rw [show wCtx.files = [(("a.rs").data, wFileOld)] from rfl, lookupA_cons, if_neg hp] at h2
      exact absurd h2 (by simp [lookupA_nil])

/-- C4: the four counts returned by `diff_function_counts` satisfy
`added + modified + unchanged = total`, and `total` is the sum of the
function-list lengths over all files of the second argument. -/
theorem diff_counts_identity (old merged : ProjectContext) :
    (diff_function_counts old merged).2.1 + (diff_function_counts old merged).2.2.1 +
      (diff_function_counts old merged).2.2.2 = (diff_function_counts old merged).1 ∧
    (diff_function_counts old merged).1 =
      (merged.files.map (fun pf => pf.2.functions.length)).sum := by
  have h := diffGoFiles_spec old merged.files (0, 0, 0, 0)
  dsimp only at h
  unfold diff_function_counts
  omega

/-- C5: the reuse ratio lies in `[0, 1]`, equals `1` whenever
`modified = 0`, and is defined as `1` when the denominator is zero. -/
theorem reuse_ratio_spec (unchanged modified : Nat) :
    0 ≤ reuse_ratio unchanged modified ∧ reuse_ratio unchanged modified ≤ 1 ∧
    (modified = 0 → reuse_ratio unchanged modified = 1) ∧
    (unchanged + modified = 0 → reuse_ratio unchanged modified = 1) := by
  simp only [reuse_ratio]
  by_cases h0 : unchanged + modified = 0
  · rw [h0]
    norm_num
  · have hpos : ((unchanged + modified : Nat) : ℚ) > 0 := by
      have h1 : 0 < unchanged + modified := Nat.pos_of_ne_zero h0
      exact_mod_cast h1
    rw [if_pos hpos]
    refine ⟨div_nonneg (by positivity) (le_of_lt hpos), ?_, ?_, ?_⟩
    · rw [div_le_one hpos]
      exact_mod_cast Nat.le_add_right unchanged modified
    · intro hm
      subst hm
      have hcast : ((unchanged + 0 : Nat) : ℚ) = (unchanged : ℚ) := by norm_num
      have hu : (0 : ℚ) < (unchanged : ℚ) := by rw [hcast] at hpos; exact hpos
      rw [hcast]
      exact div_self (ne_of_gt hu)
    · intro hc
      exact absurd hc h0

/-- C5, witness. -/
theorem reuse_ratio_spec_concrete :
    0 ≤ reuse_ratio 3 0 ∧ reuse_ratio 3 0 = 1 :=
  ⟨(reuse_ratio_spec 3 0).1, (reuse_ratio_spec 3 0).2.2.1 rfl⟩

/-- C7, counterexample.  The claim says `init` reports already-initialized
and writes nothing exactly when `context.json` and `config.toml` both
exist; but the code tests `log.json` and `config.toml`
(src/main.rs:202).  In the state where `log.json` and `config.toml`
exist and `context.json` does not, `init` reports and writes nothing,
although the claim's condition is false. -/
theorem init_guard_checks_log_not_context :
    ¬ (((init builtEmpty stateLogConfigOnly).2 = true ∧
        (init builtEmpty stateLogConfigOnly).1 = stateLogConfigOnly) ↔
       (stateLogConfigOnly.context.isSome ∧ stateLogConfigOnly.config.isSome)) := by
  decide

/-- C7 (amended): `init` reports already-initialized and leaves the state
unchanged exactly when `log.json` and `config.toml` both exist;
otherwise it creates the directory, creates an empty log, writes the
default configuration and persists the freshly built snapshot. -/
theorem init_guard_spec (built : ProjectContext) (s : FsState) :
    (s.log.isSome ∧ s.config.isSome → init built s = (s, true)) ∧
    (¬ (s.log.isSome ∧ s.config.isSome) →
      init built s = (⟨true, some [], some CONFIG_TEXT, some built⟩, false)) := by
  constructor
  · intro h
    unfold init
    rw [if_pos h]
  · intro h
    unfold init
    rw [if_neg h]

/-- C7, witness for the amended theorem. -/
theorem init_guard_spec_concrete :
    init builtEmpty stateLogConfigOnly = (stateLogConfigOnly, true) ∧
    init builtEmpty ⟨false, none, none, none⟩ =
      (⟨true, some [], some CONFIG_TEXT, some builtEmpty⟩, false) :=
  ⟨(init_guard_spec builtEmpty stateLogConfigOnly).1 (by decide),
   (init_guard_spec builtEmpty ⟨false, none, none, none⟩).2 (by decide)⟩

set_option maxRecDepth 4000 in
/-- C9, counterexample.  The prompt budget is not an upper bound on the
returned prompt's length: when the preamble fits the budget with one
byte to spare, a one-byte path is still appended together with its
`\n---\n` and `\n\n` separators (only the snippet is truncated), so the
result exceeds `max_prompt_chars` by seven bytes. -/
theorem render_prompt_exceeds_budget :
    byteLen onboardPreamble ≤ byteLen onboardPreamble + 1 ∧
    byteLen onboardPreamble + 1 <
      byteLen (render_onboarding_prompt [((("x").data), [])] (byteLen onboardPreamble + 1)) := by
  constructor
  · exact Nat.le_succ _
  · decide

/-- C9 (amended): blocks are appended only while the current length is
below the budget and each snippet is truncated to the remaining budget,
so the prompt exceeds `max_chars` by at most one untruncated path plus
the seven bytes of fixed separators: when the budget covers the
preamble and every candidate path is at most `P` bytes, the result is at
most `max_chars + P + 7` bytes. -/
theorem render_prompt_budget_bound (cands : List (Str × Str)) (max_chars P : Nat)
    (hpre : byteLen onboardPreamble ≤ max_chars)
    (hP : ∀ pr ∈ cands, byteLen pr.1 ≤ P) :
    byteLen (render_onboarding_prompt cands max_chars) ≤ max_chars + P + 7 := by
  unfold render_onboarding_prompt
  have h := renderGo_bound max_chars P cands onboardPreamble hP
  have hmax : max (byteLen onboardPreamble) (max_chars + P + 7) = max_chars + P + 7 :=
    max_eq_right (by omega)
  rw [hmax] at h
  exact h

set_option maxRecDepth 4000 in
/-- C9, witness for the amended theorem. -/
theorem render_prompt_budget_bound_concrete :
    byteLen (render_onboarding_prompt [((("a").data), ("bb").data)] 1000) ≤ 1000 + 1 + 7 :=
  render_prompt_budget_bound [((("a").data), ("bb").data)] 1000 1 (by decide) (by decide)

/-- C6: the merge frame rule: folders are replaced wholesale from the
fresh snapshot, entry points and the project brief are carried over from
the old snapshot unchanged. -/
theorem merge_contexts_frame (old new : ProjectContext) :
    (merge_contexts old new).folders = new.folders ∧
    (merge_contexts old new).entry_points = old.entry_points ∧
    (merge_contexts old new).project_brief = old.project_brief :=
  ⟨rfl, rfl, rfl⟩

/-- C8, counterexample.  A traversal error does not get skipped: the
`entry?` at src/main.rs:234 propagates it, so `build_context` returns an
error instead of a snapshot covering the remaining entries. -/
theorem build_context_errors_on_walk_error :
    build_context (fun s => s) wErr = Except.error () := rfl

/-- C8 (amended): only an unreadable SOURCE FILE is skipped; traversal
and directory-listing errors abort `build_context`.  When every walk
item is yielded successfully and every directory listing succeeds,
`build_context` returns a snapshot and every readable accepted source
file is covered by it. -/
theorem build_context_skips_unreadable_files (hashFn : Str → Str) (w : World)
    (hwalk : ∀ e ∈ w.walk, ∃ en : WEntry, e = Except.ok en ∧ en.comps.head? = some ['.'])
    (hdir : ∀ en : WEntry, Except.ok en ∈ w.walk → en.isDir = true →
      ∃ cs, w.readDir en.comps = Except.ok cs) :
    ∃ ctx, build_context hashFn w = Except.ok ctx ∧
      ∀ en : WEntry, Except.ok en ∈ w.walk → readableSourceEntry w en →
        pathStr en.comps.tail ∈ ctx.files.map Prod.fst := by
  obtain ⟨st2, hgo, _, hkeys⟩ := buildGo_ok hashFn w w.walk hwalk hdir ([], [])
  refine ⟨⟨st2.1, st2.2, [], none⟩, ?_, ?_⟩
  · unfold build_context
    rw [hgo]
  · intro en hen hread
    exact hkeys en hen hread

/-- C8, witness for the amended theorem. -/
theorem build_context_skips_unreadable_files_concrete :
    ∃ ctx, build_context (fun s => s) w8 = Except.ok ctx ∧
      ∀ en : WEntry, Except.ok en ∈ w8.walk → readableSourceEntry w8 en →
        pathStr en.comps.tail ∈ ctx.files.map Prod.fst :=
  build_context_skips_unreadable_files (fun s => s) w8
    (by
      intro e he
      simp only [w8] at he
      rcases List.mem_cons.mp he with rfl | he2
      · exact ⟨_, rfl, rfl⟩
      rcases List.mem_cons.mp he2 with rfl | he3
      · exact ⟨_, rfl, rfl⟩
      · exact absurd he3 (List.not_mem_nil _))
    (by
      intro en hen hd
      simp only [w8] at hen
      rcases List.mem_cons.mp hen with heq | hen2
      · have he : en = ⟨[['.'], ("a.py").data], false, true⟩ := by injection heq
        rw [he] at hd
        exact absurd hd (by decide)
      rcases List.mem_cons.mp hen2 with heq | hen3
      · have he : en = ⟨[['.'], ("b.rs").data], false, true⟩ := by injection heq
        rw [he] at hd
        exact absurd hd (by decide)
      · exact absurd hen3 (List.not_mem_nil _))

/-- C10: every path stored by `build_context` carries an extension
accepted by `detect_language`; no accepted extension can end a path in
"readme" or "readme.md" (case-insensitively), so candidate bucket 1
finds no README among the keys and the candidate list never contains a
README path. -/
theorem no_readme_candidates (hashFn : Str → Str) (w : World) (ctx : ProjectContext)
    (mf mb : Nat) (hok : build_context hashFn w = Except.ok ctx) :
    (∀ kv ∈ ctx.files, GoodKey kv.1) ∧
    (ctx.files.map Prod.fst).find? (fun k => isReadme k) = none ∧
    (∀ pr ∈ build_entry_candidates w ctx mf mb, isReadme pr.1 = false) := by
  have hgood := build_context_goodKeys hashFn w ctx hok
  have hkeys : ∀ k ∈ ctx.files.map Prod.fst, isReadme k = false := by
    intro k hk
    obtain ⟨kv, hkv, hfst⟩ := List.mem_map.mp hk
    rw [← hfst]
    exact goodKey_not_readme kv.1 (hgood kv hkv)
  refine ⟨hgood, ?_, ?_⟩
  · rw [List.find?_eq_none]
    intro k hk
    rw [hkeys k hk]
    simp
  · intro pr hpr
    have hc := build_entry_candidates_keys w ctx mf mb pr hpr
    have hmem : pr.1 ∈ ctx.files.map Prod.fst := by
      rw [← lookupA_isSome_iff_mem_keys]
      exact hc
    exact hkeys pr.1 hmem

/-- C10, witness. -/
theorem no_readme_candidates_concrete :
    (∀ kv ∈ ctx10.files, GoodKey kv.1) ∧
    (ctx10.files.map Prod.fst).find? (fun k => isReadme k) = none ∧
    (∀ pr ∈ build_entry_candidates w10 ctx10 15 40000, isReadme pr.1 = false) :=
  no_readme_candidates (fun s => s) w10 ctx10 15 40000 (by rfl)

end Codemap
